import Mathlib

/-!
Verification of the circular byte queue implemented in `src/queue.c` / `src/queue.h`.

The C structure `queue_t` carries a malloc'ed byte buffer `data`, two `uint32_t`
indices `head` and `tail`, the buffer length `total_size`, the cached occupancy
`current_size`, plus a mutex and a condition variable.  The mutex and condition
variable carry no data state, so the shallow embedding keeps only the five data
fields.  `uint32_t` values are modelled as `Nat` with explicit reduction modulo
`2^32` at every arithmetic step where the C code can wrap.  Bytes are modelled
as `Nat` (their values are only copied, never computed with).

A C division by zero (the `% total_size` expressions when `total_size == 0`) is
undefined behaviour that traps on the target platforms; it is modelled by the
`Option` result `none` of the loop functions.  Null pointer arguments are
modelled by `Option` parameters (`none` = NULL); the out-buffer of the get
operations is write-only, so only its null-ness (a `Bool`) is modelled and the
bytes transferred into it are returned as a list.
-/

/-- `2^32`, the modulus of C `uint32_t` arithmetic. -/
def U32 : Nat := 4294967296

/-- Shallow embedding of `struct queue_t` from `src/queue.h` (data fields only;
the mutex and condition variable hold no data state). -/
structure queue_t where
  data : List Nat
  head : Nat
  tail : Nat
  total_size : Nat
  current_size : Nat
  deriving Repr, DecidableEq

/-- `queue_init` from `src/queue.c` (lines 28-57).  Rejects a null target or a
zero size, computes `len = queue_size * sizeof(uint8_t) + 1` in `uint32_t`
arithmetic (which wraps modulo `2^32`), allocates `len` bytes (malloc is
modelled as succeeding; fresh memory has arbitrary contents, fixed to zeros
here) and resets the indices and the cached occupancy.  `none` models a `false`
return; the null-target rejection is covered by callers passing a real
structure, so the remaining failure is `queue_size == 0`. -/
def queue_init (queue_size : Nat) : Option queue_t :=
  if queue_size = 0 then none
  else
    let len := (queue_size * 1 + 1) % U32
    some { data := List.replicate len 0, head := 0, tail := 0,
           total_size := len, current_size := 0 }

/-- `queue_clear` from `src/queue.c` (lines 65-80): fails only on a null
handle, otherwise resets `head`, `tail` and `current_size` under the lock and
leaves the buffer pointer, the buffer contents and `total_size` alone. -/
def queue_clear (queue : Option queue_t) : Bool × Option queue_t :=
  match queue with
  | none => (false, none)
  | some q => (true, some { q with head := 0, tail := 0, current_size := 0 })

/-- `queue_get_current_size` from `src/queue.c` (lines 87-90): returns the
cached `current_size` field (unlocked read). -/
def queue_get_current_size (q : queue_t) : Nat :=
  q.current_size

/-- `queue_is_empty` from `src/queue.c` (lines 294-297):
`(!queue_name.current_size) ? true : false`. -/
def queue_is_empty (q : queue_t) : Bool :=
  if q.current_size = 0 then true else false

/-- The insertion loop of `queue_put_data` (`src/queue.c` lines 113-133).
One iteration per remaining input byte: first the full test
`(tail + 1) % total_size == head` (a division by zero when `total_size == 0`,
modelled as `none`; the `tail + 1` is `uint32_t` arithmetic), then the byte is
stored at `tail`, `tail` advances modulo `total_size` and `current_size` is
incremented (`uint32_t` arithmetic).  Returns the C loop's `put_num` together
with the final state. -/
def put_loop : queue_t → List Nat → Nat → Option (Nat × queue_t)
  | q, [], put_num => some (put_num, q)
  | q, b :: rest, put_num =>
    if q.total_size = 0 then none
    else if ((q.tail + 1) % U32) % q.total_size = q.head then some (put_num, q)
    else
      put_loop
        { q with
          data := q.data.set q.tail b,
          tail := ((q.tail + 1) % U32) % q.total_size,
          current_size := (q.current_size + 1) % U32 }
        rest (put_num + 1)

/-- `queue_put_data` from `src/queue.c` (lines 100-140).  Returns `-1` when
the queue handle is null, the data pointer is null, or `data_len` is zero
(the data argument is modelled as the list of the `data_len` input bytes, so
`data_len == 0` is the empty list); otherwise runs the insertion loop.  The
result pairs the C `int` return value with the queue state after the call;
`none` models the division-by-zero trap. -/
def queue_put_data (queue : Option queue_t) (data : Option (List Nat)) :
    Option (Int × Option queue_t) :=
  match queue, data with
  | none, _ => some (-1, none)
  | some q, none => some (-1, some q)
  | some q, some [] => some (-1, some q)
  | some q, some (b :: rest) =>
    match put_loop q (b :: rest) 0 with
    | none => none
    | some (n, q') => some ((n : Int), some q')

/-- The drain loop shared verbatim by `queue_get_data` (`src/queue.c` lines
173-191) and `queue_get_data_with_timeout` (lines 263-281).  One iteration per
requested byte: exit early when `head == tail`, otherwise copy `data[head]`
into the output, advance `head` modulo `total_size` (`uint32_t` arithmetic;
a division by zero when `total_size == 0`, modelled `none`) and decrement
`current_size` (`uint32_t` arithmetic, so a decrement of `0` wraps).  Returns
the transferred bytes in order (the C `get_num` is their count) and the final
state. -/
def drain_loop : queue_t → Nat → Option (List Nat × queue_t)
  | q, 0 => some ([], q)
  | q, n + 1 =>
    if q.head = q.tail then some ([], q)
    else if q.total_size = 0 then none
    else
      let b := q.data.getD q.head 0
      match
        drain_loop
          { q with
            head := ((q.head + 1) % U32) % q.total_size,
            current_size := (q.current_size + (U32 - 1)) % U32 }
          n
      with
      | none => none
      | some (out, q') => some (b :: out, q')

/-- Result of `queue_get_data`: `invalid` is the `-1` return for bad
arguments, `blocked` models the unbounded wait of the `while`/`pthread_cond_wait`
loop when the occupancy reads zero (no producer is modelled, so the call never
returns), `crash` the division-by-zero trap, and `ok out q'` a normal return
whose C return value is `out.length`. -/
inductive GetResult where
  | invalid
  | blocked
  | crash
  | ok (out : List Nat) (q : queue_t)
  deriving Repr, DecidableEq

/-- `queue_get_data` from `src/queue.c` (lines 150-196).  `data_ok` models the
non-null-ness of the output pointer.  Checks the arguments, then waits while
the occupancy reads zero, then drains. -/
def queue_get_data (queue : Option queue_t) (data_ok : Bool) (data_len : Nat) :
    GetResult :=
  match queue with
  | none => .invalid
  | some q =>
    if data_ok = false ∨ data_len = 0 then .invalid
    else if queue_get_current_size q = 0 then .blocked
    else
      match drain_loop q data_len with
      | none => .crash
      | some (out, q') => .ok out q'

/-- The Linux `errno` value `EINTR`. -/
def EINTR : Int := 4

/-- Outcome of the timed wait loop of `queue_get_data_with_timeout`
(`src/queue.c` lines 237-258): `proceed q` means the `while` condition saw a
non-zero occupancy and the code falls through to the drain with state `q`;
`fail q` means the loop executed `return -1`; `pending` means the supplied
event trace ended while the loop was still waiting. -/
inductive WaitOutcome where
  | proceed (q : queue_t)
  | fail (q : queue_t)
  | pending
  deriving Repr, DecidableEq

/-- The `while (0 == queue_get_current_size(...))` loop of
`queue_get_data_with_timeout` (`src/queue.c` lines 237-258).  Each element of
`waits` is one return of `pthread_cond_timedwait`: the `int` it returned and
the queue state observable when the caller wakes (concurrent producers may
have changed it while the waiter slept).  The loop re-checks the occupancy,
consumes one wait event, continues on `EINTR`, and returns `-1` on every
other return value. -/
def timeout_wait_loop : queue_t → List (Int × queue_t) → WaitOutcome
  | q, [] =>
    if queue_get_current_size q ≠ 0 then .proceed q else .pending
  | q, (ret, qNow) :: rest =>
    if queue_get_current_size q ≠ 0 then .proceed q
    else if ret = EINTR then timeout_wait_loop qNow rest
    else .fail qNow

/-- Result of `queue_get_data_with_timeout`: `invalid` is the `-1` return for
bad arguments, `timeoutFail q` the `-1` return from inside the wait loop
(final state `q`), `pending` a wait trace that ended while still waiting,
`crash` the division-by-zero trap, and `ok out q'` a normal return whose C
return value is `out.length`. -/
inductive TimedResult where
  | invalid
  | timeoutFail (q : queue_t)
  | pending
  | crash
  | ok (out : List Nat) (q : queue_t)
  deriving Repr, DecidableEq

/-- `queue_get_data_with_timeout` from `src/queue.c` (lines 207-286).  Checks
the arguments; when `timeout > 0` it computes a deadline and runs the timed
wait loop (the deadline only influences which `int` values
`pthread_cond_timedwait` hands back, which the `waits` trace supplies), when
`timeout == 0` it skips all waiting; then it runs the same drain loop as
`queue_get_data`. -/
def queue_get_data_with_timeout (queue : Option queue_t) (data_ok : Bool)
    (data_len : Nat) (timeout : Nat) (waits : List (Int × queue_t)) :
    TimedResult :=
  match queue with
  | none => .invalid
  | some q =>
    if data_ok = false ∨ data_len = 0 then .invalid
    else
      match (if timeout > 0 then timeout_wait_loop q waits else .proceed q) with
      | .pending => .pending
      | .fail qN => .timeoutFail qN
      | .proceed qN =>
        match drain_loop qN data_len with
        | none => .crash
        | some (out, q') => .ok out q'

/-- A sequence of `queue_put_data` calls, one per chunk, in which every call
must report the full chunk written (no short write); `none` as soon as a call
fails, short-writes or traps. -/
def put_seq : queue_t → List (List Nat) → Option queue_t
  | q, [] => some q
  | q, bs :: rest =>
    match queue_put_data (some q) (some bs) with
    | some (ret, some q') => if ret = (bs.length : Int) then put_seq q' rest else none
    | _ => none

/-- The abstract FIFO contents of a queue state: the `current_size` bytes
starting at `head`, read circularly. -/
def queue_contents (q : queue_t) : List Nat :=
  (List.range q.current_size).map (fun i => q.data.getD ((q.head + i) % q.total_size) 0)

/-- The occupancy invariant of the data model (spec §3): both indices lie
inside the buffer, and the cached occupancy equals the circular distance from
`head` to `tail`, i.e. `(tail - head) mod total_size`, written in `Nat`
subtraction as `(total_size + tail - head) % total_size`.  The bound
`total_size < U32` is the `uint32_t` representability of the field. -/
def queue_inv (q : queue_t) : Prop :=
  q.head < q.total_size ∧ q.tail < q.total_size ∧ q.total_size < U32 ∧
    q.current_size = (q.total_size + q.tail - q.head) % q.total_size

instance (q : queue_t) : Decidable (queue_inv q) := by
  unfold queue_inv; infer_instance

/-- Well-formedness: the invariant plus the malloc fact that the buffer holds
exactly `total_size` bytes. -/
def queue_wf (q : queue_t) : Prop :=
  queue_inv q ∧ q.data.length = q.total_size

instance (q : queue_t) : Decidable (queue_wf q) := by
  unfold queue_wf; infer_instance

/-! ### Arithmetic helpers for circular-index reasoning -/

/-- A value below `2^32` is unchanged by `uint32_t` reduction. -/
theorem u32_id {a : Nat} (h : a < U32) : a % U32 = a :=
  Nat.mod_eq_of_lt h

/-- Evaluation of `a % T` when `a < 2 * T`. -/
theorem mod_small_double {a T : Nat} (h : a < 2 * T) :
    a % T = if T ≤ a then a - T else a := by
  by_cases hle : T ≤ a
  · rw [if_pos hle, Nat.mod_eq_sub_mod hle, Nat.mod_eq_of_lt (by omega)]
  · rw [if_neg hle, Nat.mod_eq_of_lt (by omega)]

/-- The map `i ↦ (hd + i) % T` is injective on `[0, T)`. -/
theorem add_mod_inj {hd i j T : Nat} (hhd : hd < T) (hi : i < T) (hj : j < T)
    (h : (hd + i) % T = (hd + j) % T) : i = j := by
  rw [mod_small_double (by omega), mod_small_double (by omega)] at h
  split_ifs at h <;> omega

/-- A state whose `tail` is `head` plus the occupancy, circularly, satisfies
the occupancy invariant. -/
theorem inv_of_view {hd cs T : Nat} (h1 : hd < T) (h2 : cs < T) (h3 : T < U32)
    (data : List Nat) :
    queue_inv ⟨data, hd, (hd + cs) % T, T, cs⟩ := by
  have htl : (hd + cs) % T = if T ≤ hd + cs then hd + cs - T else hd + cs :=
    mod_small_double (by omega)
  refine ⟨h1, ?_, h3, ?_⟩
  · show (hd + cs) % T < T
    rw [htl]; split <;> omega
  · show cs = (T + (hd + cs) % T - hd) % T
    rw [htl]; split
    · have he : T + (hd + cs - T) - hd = cs := by omega
      rw [he, Nat.mod_eq_of_lt h2]
    · have he : T + (hd + cs) - hd = T + cs := by omega
      rw [he, mod_small_double (by omega)]
      split <;> omega

/-- Conversely, the invariant forces `current_size < total_size` and
`tail = (head + current_size) % total_size`. -/
theorem inv_view {q : queue_t} (h : queue_inv q) :
    q.current_size < q.total_size ∧
      (q.head + q.current_size) % q.total_size = q.tail := by
  obtain ⟨h1, h2, _, h4⟩ := h
  have hm : (q.total_size + q.tail - q.head) % q.total_size =
      if q.total_size ≤ q.total_size + q.tail - q.head
      then q.total_size + q.tail - q.head - q.total_size
      else q.total_size + q.tail - q.head :=
    mod_small_double (by omega)
  rw [hm] at h4
  have hcs : q.current_size < q.total_size := by
    split at h4 <;> omega
  refine ⟨hcs, ?_⟩
  rw [mod_small_double (a := q.head + q.current_size) (by omega)]
  split at h4 <;> split <;> omega

/-- The full test of the put loop, under the invariant, is exactly
`current_size = total_size - 1`. -/
theorem full_iff {q : queue_t} (h : queue_inv q) :
    (((q.tail + 1) % U32) % q.total_size = q.head ↔
      q.current_size = q.total_size - 1) := by
  obtain ⟨hcs, htl⟩ := inv_view h
  obtain ⟨h1, h2, h3, _⟩ := h
  rw [u32_id (by omega), ← htl, Nat.mod_add_mod,
    mod_small_double (a := q.head + q.current_size + 1) (by omega)]
  split <;> omega

/-- The emptiness test of the drain loop, under the invariant, is exactly
`current_size = 0`. -/
theorem empty_iff {q : queue_t} (h : queue_inv q) :
    (q.head = q.tail ↔ q.current_size = 0) := by
  obtain ⟨hcs, htl⟩ := inv_view h
  obtain ⟨h1, h2, _, _⟩ := h
  rw [← htl, mod_small_double (a := q.head + q.current_size) (by omega)]
  split <;> omega

/-! ### List access helpers -/

/-- Writing one cell leaves every other cell unchanged. -/
theorem getD_set_ne (b : Nat) :
    ∀ (l : List Nat) (i j : Nat), i ≠ j → (l.set i b).getD j 0 = l.getD j 0 := by
  intro l
  induction l with
  | nil => intro i j _; cases i <;> rfl
  | cons a l ih =>
    intro i j hij
    cases i with
    | zero =>
      cases j with
      | zero => exact absurd rfl hij
      | succ j => simp [List.set]
    | succ i =>
      cases j with
      | zero => simp [List.set]
      | succ j => simpa [List.set] using ih i j (by omega)

/-- Writing one in-range cell stores the written byte there. -/
theorem getD_set_self (b : Nat) :
    ∀ (l : List Nat) (i : Nat), i < l.length → (l.set i b).getD i 0 = b := by
  intro l
  induction l with
  | nil => intro i h; simp at h
  | cons a l ih =>
    intro i h
    cases i with
    | zero => rfl
    | succ i => simpa [List.set] using ih i (by simpa using h)

/-! ### Invariant preservation of the single loop steps -/

/-- One non-full iteration of the put loop preserves the occupancy invariant,
and its `uint32_t` increment of the occupancy does not wrap. -/
theorem put_step_inv {q : queue_t} (h : queue_inv q) (b : Nat)
    (hnf : q.current_size ≠ q.total_size - 1) :
    queue_inv
      { q with
        data := q.data.set q.tail b,
        tail := ((q.tail + 1) % U32) % q.total_size,
        current_size := (q.current_size + 1) % U32 } ∧
    (q.current_size + 1) % U32 = q.current_size + 1 := by
  obtain ⟨hcs, htl⟩ := inv_view h
  obtain ⟨h1, h2, h3, h4⟩ := h
  have e1 : (q.current_size + 1) % U32 = q.current_size + 1 := u32_id (by omega)
  have e2 : ((q.tail + 1) % U32) % q.total_size =
      (q.head + (q.current_size + 1)) % q.total_size := by
    rw [u32_id (by omega), ← htl, Nat.mod_add_mod, Nat.add_assoc]
  have hv := inv_of_view h1 (show q.current_size + 1 < q.total_size by omega) h3
    (q.data.set q.tail b)
  refine ⟨?_, e1⟩
  unfold queue_inv at hv ⊢
  simpa [e1, e2] using hv

/-- One iteration of the drain loop on a non-empty state preserves the
occupancy invariant, and its `uint32_t` decrement of the occupancy does not
wrap. -/
theorem drain_step_inv {q : queue_t} (h : queue_inv q) (hne : q.current_size ≠ 0) :
    queue_inv
      { q with
        head := ((q.head + 1) % U32) % q.total_size,
        current_size := (q.current_size + (U32 - 1)) % U32 } ∧
    (q.current_size + (U32 - 1)) % U32 = q.current_size - 1 := by
  obtain ⟨hcs, htl⟩ := inv_view h
  obtain ⟨h1, h2, h3, h4⟩ := h
  have e1 : (q.current_size + (U32 - 1)) % U32 = q.current_size - 1 := by
    rw [mod_small_double (by omega)]
    split <;> omega
  have e2 : ((q.head + 1) % U32) % q.total_size = (q.head + 1) % q.total_size := by
    rw [u32_id (by omega)]
  have hv := @inv_of_view ((q.head + 1) % q.total_size) (q.current_size - 1)
    q.total_size (Nat.mod_lt _ (by omega)) (by omega) h3 q.data
  have e3 : ((q.head + 1) % q.total_size + (q.current_size - 1)) % q.total_size =
      q.tail := by
    rw [Nat.mod_add_mod,
      show q.head + 1 + (q.current_size - 1) = q.head + q.current_size by omega, htl]
  rw [e3] at hv
  refine ⟨?_, e1⟩
  unfold queue_inv at hv ⊢
  simpa [e1, e2] using hv

/-! ### Loop specifications -/

/-- The put loop, started on a state satisfying the occupancy invariant,
never traps, returns its starting counter plus
`min data_len (capacity - occupancy)` (the capacity is `total_size - 1`),
raises the occupancy by the same amount, and touches neither `head`, nor
`total_size`, nor the buffer length; the invariant still holds at exit. -/
theorem put_loop_inv :
    ∀ (bytes : List Nat) (q : queue_t) (n : Nat), queue_inv q →
    ∃ q', put_loop q bytes n =
        some (n + min bytes.length (q.total_size - 1 - q.current_size), q') ∧
      queue_inv q' ∧ q'.head = q.head ∧ q'.total_size = q.total_size ∧
      q'.data.length = q.data.length ∧
      q'.current_size =
        q.current_size + min bytes.length (q.total_size - 1 - q.current_size) := by
  intro bytes
  induction bytes with
  | nil =>
    intro q n h
    exact ⟨q, by simp [put_loop], h, rfl, rfl, rfl, by simp⟩
  | cons b rest ih =>
    intro q n h
    have hcs := (inv_view h).1
    have hT0 : q.total_size ≠ 0 := by omega
    by_cases hfull : q.current_size = q.total_size - 1
    · have hf : ((q.tail + 1) % U32) % q.total_size = q.head := (full_iff h).mpr hfull
      have hmin : q.total_size - 1 - q.current_size = 0 := by omega
      exact ⟨q, by simp [put_loop, hT0, hf, hmin], h, rfl, rfl, rfl, by simp [hmin]⟩
    · have hf : ¬(((q.tail + 1) % U32) % q.total_size = q.head) :=
        fun hc => hfull ((full_iff h).mp hc)
      obtain ⟨hinv1, hcs1⟩ := put_step_inv h b hfull
      generalize hq1 :
        ({ q with
           data := q.data.set q.tail b,
           tail := ((q.tail + 1) % U32) % q.total_size,
           current_size := (q.current_size + 1) % U32 } : queue_t) = q1 at hinv1
      have hq1T : q1.total_size = q.total_size := by rw [← hq1]
      have hq1h : q1.head = q.head := by rw [← hq1]
      have hq1cs : q1.current_size = q.current_size + 1 := by rw [← hq1]; exact hcs1
      have hq1dl : q1.data.length = q.data.length := by rw [← hq1]; simp
      have hstep : put_loop q (b :: rest) n = put_loop q1 rest (n + 1) := by
        rw [← hq1]; simp [put_loop, hT0, hf]
      obtain ⟨q', hpl, hinv', hh, hT, hdl, hcs'⟩ := ih q1 (n + 1) hinv1
      refine ⟨q', ?_, hinv', hh.trans hq1h, hT.trans hq1T, hdl.trans hq1dl, ?_⟩
      · rw [hstep, hpl, hq1T, hq1cs]
        have harith :
            n + 1 + min rest.length (q.total_size - 1 - (q.current_size + 1)) =
              n + min (b :: rest).length (q.total_size - 1 - q.current_size) := by
          simp only [List.length_cons]
          omega
        rw [harith]
      · rw [hcs', hq1T, hq1cs]
        simp only [List.length_cons]
        omega

/-- The drain loop, started on a state satisfying the occupancy invariant,
never traps, extracts exactly `min data_len occupancy` bytes, lowers the
occupancy by the same amount, and touches neither `tail`, nor `total_size`,
nor the buffer; the invariant still holds at exit. -/
theorem drain_loop_inv :
    ∀ (n : Nat) (q : queue_t), queue_inv q →
    ∃ out q', drain_loop q n = some (out, q') ∧
      out.length = min n q.current_size ∧ queue_inv q' ∧
      q'.tail = q.tail ∧ q'.total_size = q.total_size ∧ q'.data = q.data ∧
      q'.current_size = q.current_size - min n q.current_size := by
  intro n
  induction n with
  | zero =>
    intro q h
    exact ⟨[], q, by simp [drain_loop], by simp, h, rfl, rfl, rfl, by simp⟩
  | succ n ih =>
    intro q h
    by_cases hemp : q.current_size = 0
    · have he : q.head = q.tail := (empty_iff h).mpr hemp
      exact ⟨[], q, by simp [drain_loop, he], by simp [hemp], h, rfl, rfl, rfl,
        by simp [hemp]⟩
    · have he : ¬(q.head = q.tail) := fun hc => hemp ((empty_iff h).mp hc)
      have hT0 : ¬(q.total_size = 0) := by have := h.1; omega
      obtain ⟨hinv1, hcs1⟩ := drain_step_inv h hemp
      generalize hq1 :
        ({ q with
           head := ((q.head + 1) % U32) % q.total_size,
           current_size := (q.current_size + (U32 - 1)) % U32 } : queue_t) = q1
        at hinv1
      have hq1T : q1.total_size = q.total_size := by rw [← hq1]
      have hq1tl : q1.tail = q.tail := by rw [← hq1]
      have hq1cs : q1.current_size = q.current_size - 1 := by rw [← hq1]; exact hcs1
      have hq1data : q1.data = q.data := by rw [← hq1]
      obtain ⟨out, q', hdl, hlen, hinv', htl, hT, hdata, hcs'⟩ := ih q1 hinv1
      have hstep : drain_loop q (n + 1) = some (q.data.getD q.head 0 :: out, q') := by
        simp only [drain_loop, if_neg he, if_neg hT0]
        rw [hq1, hdl]
      refine ⟨q.data.getD q.head 0 :: out, q', hstep, ?_, hinv', htl.trans hq1tl,
        hT.trans hq1T, hdata.trans hq1data, ?_⟩
      · simp only [List.length_cons]
        rw [hlen, hq1cs]
        omega
      · rw [hcs', hq1cs]
        omega

/-! ### FIFO contents of the loop steps -/

/-- An empty queue (zero occupancy) has empty abstract contents. -/
theorem contents_of_empty {q : queue_t} (h : q.current_size = 0) :
    queue_contents q = [] := by
  unfold queue_contents
  rw [h]
  simp

/-- The abstract contents have exactly `current_size` bytes. -/
theorem contents_length (q : queue_t) : (queue_contents q).length = q.current_size := by
  unfold queue_contents
  simp

/-- One non-full put iteration appends the stored byte to the abstract
contents. -/
theorem put_step_contents {q : queue_t} (h : queue_wf q) (b : Nat) :
    queue_contents
      { q with
        data := q.data.set q.tail b,
        tail := ((q.tail + 1) % U32) % q.total_size,
        current_size := (q.current_size + 1) % U32 } =
    queue_contents q ++ [b] := by
  obtain ⟨hinv, hlen⟩ := h
  obtain ⟨hcs, htl⟩ := inv_view hinv
  have h1 : q.head < q.total_size := hinv.1
  have h3 : q.total_size < U32 := hinv.2.2.1
  have e1 : (q.current_size + 1) % U32 = q.current_size + 1 := u32_id (by omega)
  show (List.range ((q.current_size + 1) % U32)).map
      (fun i => (q.data.set q.tail b).getD ((q.head + i) % q.total_size) 0) =
    queue_contents q ++ [b]
  rw [e1, List.range_succ, List.map_append]
  congr 1
  · unfold queue_contents
    apply List.map_congr_left
    intro i hi
    rw [List.mem_range] at hi
    apply getD_set_ne
    intro hc
    rw [← htl] at hc
    exact absurd (add_mod_inj h1 (by omega) (by omega) hc.symm) (by omega)
  · rw [List.map_cons, List.map_nil, ← htl,
      getD_set_self b q.data ((q.head + q.current_size) % q.total_size)
        (by rw [hlen, htl]; exact hinv.2.1)]

set_option maxRecDepth 100000 in
/-- One drain iteration on a non-empty state splits the abstract contents
into the byte at `head` and the contents of the stepped state. -/
theorem drain_step_contents {q : queue_t} (h : queue_wf q)
    (hne : q.current_size ≠ 0) :
    queue_contents q =
      q.data.getD q.head 0 ::
        queue_contents
          { q with
            head := ((q.head + 1) % U32) % q.total_size,
            current_size := (q.current_size + (U32 - 1)) % U32 } := by
  obtain ⟨hinv, hlen⟩ := h
  have h1 : q.head < q.total_size := hinv.1
  have h3 : q.total_size < U32 := hinv.2.2.1
  have e1 : (q.current_size + (U32 - 1)) % U32 = q.current_size - 1 :=
    (drain_step_inv hinv hne).2
  have e2 : ((q.head + 1) % U32) % q.total_size = (q.head + 1) % q.total_size := by
    rw [u32_id (by omega)]
  show queue_contents q =
    q.data.getD q.head 0 ::
      (List.range ((q.current_size + (U32 - 1)) % U32)).map
        (fun i =>
          q.data.getD ((((q.head + 1) % U32) % q.total_size + i) % q.total_size) 0)
  rw [e1, e2]
  unfold queue_contents
  obtain ⟨m, hm⟩ : ∃ m, q.current_size = m + 1 := ⟨q.current_size - 1, by omega⟩
  rw [hm, show m + 1 - 1 = m by omega, List.range_succ_eq_map]
  simp only [List.map_cons, List.map_map]
  refine List.cons_eq_cons.mpr ⟨?_, ?_⟩
  · rw [Nat.add_zero, Nat.mod_eq_of_lt h1]
  · apply List.map_congr_left
    intro i hi
    simp only [Function.comp]
    rw [Nat.mod_add_mod, show q.head + 1 + i = q.head + Nat.succ i by omega]

/-- The put loop under well-formedness: same as `put_loop_inv`, and the
written prefix of the input is appended to the abstract contents. -/
theorem put_loop_contents :
    ∀ (bytes : List Nat) (q : queue_t) (n : Nat), queue_wf q →
    ∃ q', put_loop q bytes n =
        some (n + min bytes.length (q.total_size - 1 - q.current_size), q') ∧
      queue_wf q' ∧ q'.head = q.head ∧ q'.total_size = q.total_size ∧
      q'.current_size =
        q.current_size + min bytes.length (q.total_size - 1 - q.current_size) ∧
      queue_contents q' =
        queue_contents q ++ bytes.take (q.total_size - 1 - q.current_size) := by
  intro bytes
  induction bytes with
  | nil =>
    intro q n h
    exact ⟨q, by simp [put_loop], h, rfl, rfl, by simp, by simp⟩
  | cons b rest ih =>
    intro q n h
    obtain ⟨hinv, hlen⟩ := h
    have hcs := (inv_view hinv).1
    have hT0 : q.total_size ≠ 0 := by have := hinv.1; omega
    by_cases hfull : q.current_size = q.total_size - 1
    · have hf : ((q.tail + 1) % U32) % q.total_size = q.head :=
        (full_iff hinv).mpr hfull
      have hmin : q.total_size - 1 - q.current_size = 0 := by omega
      exact ⟨q, by simp [put_loop, hT0, hf, hmin], ⟨hinv, hlen⟩, rfl, rfl,
        by simp [hmin], by simp [hmin]⟩
    · have hf : ¬(((q.tail + 1) % U32) % q.total_size = q.head) :=
        fun hc => hfull ((full_iff hinv).mp hc)
      obtain ⟨hinv1, hcs1⟩ := put_step_inv hinv b hfull
      have hcont1 := put_step_contents ⟨hinv, hlen⟩ b
      generalize hq1 :
        ({ q with
           data := q.data.set q.tail b,
           tail := ((q.tail + 1) % U32) % q.total_size,
           current_size := (q.current_size + 1) % U32 } : queue_t) = q1
        at hinv1 hcont1
      have hq1T : q1.total_size = q.total_size := by rw [← hq1]
      have hq1h : q1.head = q.head := by rw [← hq1]
      have hq1cs : q1.current_size = q.current_size + 1 := by rw [← hq1]; exact hcs1
      have hq1len : q1.data.length = q1.total_size := by
        rw [← hq1]; simp [hlen]
      have hstep : put_loop q (b :: rest) n = put_loop q1 rest (n + 1) := by
        rw [← hq1]; simp [put_loop, hT0, hf]
      obtain ⟨q', hpl, hwf', hh, hT, hcs', hcont'⟩ := ih q1 (n + 1) ⟨hinv1, hq1len⟩
      refine ⟨q', ?_, hwf', hh.trans hq1h, hT.trans hq1T, ?_, ?_⟩
      · rw [hstep, hpl, hq1T, hq1cs]
        have harith :
            n + 1 + min rest.length (q.total_size - 1 - (q.current_size + 1)) =
              n + min (b :: rest).length (q.total_size - 1 - q.current_size) := by
          simp only [List.length_cons]
          omega
        rw [harith]
      · rw [hcs', hq1T, hq1cs]
        simp only [List.length_cons]
        omega
      · rw [hcont', hcont1, hq1T, hq1cs, List.append_assoc]
        have htake :
            [b] ++ rest.take (q.total_size - 1 - (q.current_size + 1)) =
              (b :: rest).take (q.total_size - 1 - q.current_size) := by
          obtain ⟨m, hm⟩ : ∃ m, q.total_size - 1 - q.current_size = m + 1 :=
            ⟨q.total_size - 2 - q.current_size, by omega⟩
          rw [hm, show q.total_size - 1 - (q.current_size + 1) = m by omega,
            List.take_succ_cons]
          rfl
        rw [htake]

/-- The drain loop under well-formedness: it returns exactly the first
`data_len` bytes of the abstract contents and leaves the rest. -/
theorem drain_loop_contents :
    ∀ (n : Nat) (q : queue_t), queue_wf q →
    ∃ q', drain_loop q n = some ((queue_contents q).take n, q') ∧
      queue_wf q' ∧ q'.tail = q.tail ∧ q'.total_size = q.total_size ∧
      q'.data = q.data ∧
      q'.current_size = q.current_size - min n q.current_size ∧
      queue_contents q' = (queue_contents q).drop n := by
  intro n
  induction n with
  | zero =>
    intro q h
    exact ⟨q, by simp [drain_loop], h, rfl, rfl, rfl, by simp, by simp⟩
  | succ n ih =>
    intro q h
    obtain ⟨hinv, hlen⟩ := h
    by_cases hemp : q.current_size = 0
    · have he : q.head = q.tail := (empty_iff hinv).mpr hemp
      have hc : queue_contents q = [] := contents_of_empty hemp
      exact ⟨q, by simp [drain_loop, he, hc], ⟨hinv, hlen⟩, rfl, rfl, rfl,
        by simp [hemp], by simp [hc]⟩
    · have he : ¬(q.head = q.tail) := fun hc => hemp ((empty_iff hinv).mp hc)
      have hT0 : ¬(q.total_size = 0) := by have := hinv.1; omega
      obtain ⟨hinv1, hcs1⟩ := drain_step_inv hinv hemp
      have hdec := drain_step_contents ⟨hinv, hlen⟩ hemp
      generalize hq1 :
        ({ q with
           head := ((q.head + 1) % U32) % q.total_size,
           current_size := (q.current_size + (U32 - 1)) % U32 } : queue_t) = q1
        at hinv1 hdec
      have hq1T : q1.total_size = q.total_size := by rw [← hq1]
      have hq1tl : q1.tail = q.tail := by rw [← hq1]
      have hq1cs : q1.current_size = q.current_size - 1 := by rw [← hq1]; exact hcs1
      have hq1data : q1.data = q.data := by rw [← hq1]
      have hq1len : q1.data.length = q1.total_size := by rw [hq1data, hq1T]; exact hlen
      obtain ⟨q', hdl, hwf', htl, hT, hdata, hcs', hcont'⟩ := ih q1 ⟨hinv1, hq1len⟩
      have hstep : drain_loop q (n + 1) =
          some (q.data.getD q.head 0 :: (queue_contents q1).take n, q') := by
        simp only [drain_loop, if_neg he, if_neg hT0]
        rw [hq1, hdl]
      refine ⟨q', ?_, hwf', htl.trans hq1tl, hT.trans hq1T, hdata.trans hq1data,
        ?_, ?_⟩
      · rw [hstep, hdec, List.take_succ_cons]
      · rw [hcs', hq1cs]
        omega
      · rw [hcont', hdec, List.drop_succ_cons]

/-! ### Derived facts about the public operations -/

/-- For capacities whose `capacity + 1` does not wrap in `uint32_t`,
initialization produces a well-formed empty queue with
`total_size = capacity + 1`. -/
theorem queue_init_wf {N : Nat} (h1 : 1 ≤ N) (h2 : N ≤ 4294967294)
    {q : queue_t} (h : queue_init N = some q) :
    queue_wf q ∧ q.total_size = N + 1 ∧ q.current_size = 0 ∧
      q.head = 0 ∧ q.tail = 0 := by
  have hU : N + 1 < U32 := by unfold U32; omega
  have hlen : (N * 1 + 1) % U32 = N + 1 := by rw [Nat.mul_one, u32_id hU]
  unfold queue_init at h
  rw [if_neg (show ¬(N = 0) by omega)] at h
  simp only [hlen] at h
  cases h
  refine ⟨⟨⟨?_, ?_, hU, ?_⟩, by simp⟩, rfl, rfl, rfl, rfl⟩
  · show 0 < N + 1
    omega
  · show 0 < N + 1
    omega
  · show 0 = (N + 1 + 0 - 0) % (N + 1)
    simp

/-- The timed wait loop only ever stops at a state that is either the
starting state or one of the states supplied by the wake trace; hence it
preserves the occupancy invariant when all of those satisfy it. -/
theorem timeout_wait_loop_inv :
    ∀ (waits : List (Int × queue_t)) (q : queue_t), queue_inv q →
    (∀ p ∈ waits, queue_inv p.2) →
    (∀ qN, timeout_wait_loop q waits = .proceed qN → queue_inv qN) ∧
    (∀ qN, timeout_wait_loop q waits = .fail qN → queue_inv qN) := by
  intro waits
  induction waits with
  | nil =>
    intro q h _
    refine ⟨?_, ?_⟩ <;> intro qN hp <;> unfold timeout_wait_loop at hp <;>
      split at hp
    · cases hp; exact h
    · cases hp
    · cases hp
    · cases hp
  | cons p rest ih =>
    obtain ⟨ret, qNow⟩ := p
    intro q h hall
    have hp2 : queue_inv qNow := hall (ret, qNow) (List.mem_cons_self _ _)
    have hrest : ∀ x ∈ rest, queue_inv x.2 :=
      fun x hx => hall x (List.mem_cons_of_mem _ hx)
    refine ⟨?_, ?_⟩ <;> intro qN hp <;> unfold timeout_wait_loop at hp
    · split at hp
      · cases hp; exact h
      · split at hp
        · exact (ih qNow hp2 hrest).1 qN hp
        · cases hp
    · split at hp
      · cases hp
      · split at hp
        · exact (ih qNow hp2 hrest).2 qN hp
        · cases hp; exact hp2

/-- A sequence of full (never short) successful puts appends the
concatenation of the chunks to the abstract contents. -/
theorem put_seq_contents :
    ∀ (bss : List (List Nat)) (q : queue_t), queue_wf q →
    ∀ q', put_seq q bss = some q' →
    queue_wf q' ∧ q'.total_size = q.total_size ∧
      q'.current_size = q.current_size + (bss.map List.length).sum ∧
      queue_contents q' = queue_contents q ++ bss.flatten := by
  intro bss
  induction bss with
  | nil =>
    intro q hwf q' hseq
    cases hseq
    exact ⟨hwf, rfl, by simp, by simp⟩
  | cons bs bss ih =>
    intro q hwf q' hseq
    unfold put_seq at hseq
    cases bs with
    | nil => simp [queue_put_data] at hseq
    | cons b rest =>
      obtain ⟨q1, hpl, hwf1, hh1, hT1, hcs1, hcont1⟩ :=
        put_loop_contents (b :: rest) q 0 hwf
      simp only [queue_put_data, hpl] at hseq
      split at hseq
      case isFalse => cases hseq
      case isTrue hcond =>
        have hfit : (b :: rest).length ≤ q.total_size - 1 - q.current_size := by
          have := Int.ofNat.inj hcond
          omega
        have htake : (b :: rest).take (q.total_size - 1 - q.current_size) =
            b :: rest :=
          List.take_of_length_le hfit
        obtain ⟨hwf', hT', hcs', hcont'⟩ := ih q1 hwf1 q' hseq
        refine ⟨hwf', hT'.trans hT1, ?_, ?_⟩
        · rw [hcs', hcs1]
          simp only [List.map_cons, List.sum_cons]
          omega
        · rw [hcont', hcont1, htake, List.append_assoc]
          rfl

/-! ### Claim theorems -/

/-- C1 (code bug): in `queue_get_data_with_timeout`, a bounded wait that
completes successfully — `pthread_cond_timedwait` returns `0` after a
producer has made the occupancy non-zero — is caught by the `else` branch of
the wait loop (which treats every return other than `EINTR`, including
success, as "timeout or other error") and the call returns `-1` without
draining, although the drain at that state would have transferred one byte.
Concrete run: fresh capacity-4 queue, `max_len = 1`, `timeout = 100`; during
the wait a producer stores byte `7` (state `⟨[7,0,0,0,0],0,1,5,1⟩`) and the
wait returns `0`. -/
theorem c1_successful_wake_returns_minus_one :
    queue_get_data_with_timeout (queue_init 4) true 1 100
        [(0, ⟨[7, 0, 0, 0, 0], 0, 1, 5, 1⟩)] =
      .timeoutFail ⟨[7, 0, 0, 0, 0], 0, 1, 5, 1⟩ ∧
    (0 : Int) ≠ EINTR ∧
    (⟨[7, 0, 0, 0, 0], 0, 1, 5, 1⟩ : queue_t).current_size ≠ 0 ∧
    drain_loop ⟨[7, 0, 0, 0, 0], 0, 1, 5, 1⟩ 1 =
      some ([7], ⟨[7, 0, 0, 0, 0], 1, 1, 5, 0⟩) := by
  refine ⟨rfl, by decide, by decide, by decide⟩

/-- C5: a valid `queue_get_data_with_timeout` call with `timeout == 0` skips
all waiting (its result does not depend on the wake trace) and goes straight
to the drain step; if the queue is empty at that moment the drain returns `0`
bytes (`ok []`), never `-1`, and the call never blocks. -/
theorem c5_zero_timeout_nonblocking :
    ∀ (q : queue_t) (n : Nat) (waits : List (Int × queue_t)), 0 < n →
      (queue_get_data_with_timeout (some q) true n 0 waits =
        match drain_loop q n with
        | none => TimedResult.crash
        | some (out, q') => TimedResult.ok out q') ∧
      (q.head = q.tail →
        queue_get_data_with_timeout (some q) true n 0 waits =
          TimedResult.ok [] q) := by
  intro q n waits hn
  have hmain : queue_get_data_with_timeout (some q) true n 0 waits =
      match drain_loop q n with
      | none => TimedResult.crash
      | some (out, q') => TimedResult.ok out q' := by
    have hargs : ¬(true = false ∨ n = 0) := by
      simp
      omega
    simp only [queue_get_data_with_timeout, if_neg hargs, gt_iff_lt,
      Nat.lt_irrefl, if_false]
  refine ⟨hmain, fun he => ?_⟩
  obtain ⟨m, rfl⟩ : ∃ m, n = m + 1 := ⟨n - 1, by omega⟩
  rw [hmain]
  simp [drain_loop, he]

/-- C5 witness: on the freshly initialized empty capacity-4 queue a
zero-timeout get of up to 3 bytes returns `0` at once. -/
theorem c5_zero_timeout_nonblocking_witness :
    queue_get_data_with_timeout (queue_init 4) true 3 0 [] =
      TimedResult.ok [] ⟨List.replicate 5 0, 0, 0, 5, 0⟩ :=
  (c5_zero_timeout_nonblocking ⟨List.replicate 5 0, 0, 0, 5, 0⟩ 3 []
    (by norm_num)).2 rfl

/-- C6: `queue_clear` on a valid queue resets `head`, `tail` and the cached
occupancy to zero and reports success, while leaving the storage (pointer and
bytes) and `total_size` untouched — no reallocation, no zeroing; and it fails
exactly on a null handle. -/
theorem c6_clear_resets_and_preserves_storage :
    (∀ q : queue_t, ∃ q', queue_clear (some q) = (true, some q') ∧
      q'.head = 0 ∧ q'.tail = 0 ∧ q'.current_size = 0 ∧
      q'.data = q.data ∧ q'.total_size = q.total_size) ∧
    queue_clear none = (false, none) :=
  ⟨fun q => ⟨_, rfl, rfl, rfl, rfl, rfl, rfl⟩, rfl⟩

/-- C8: `queue_is_empty` answers `true` exactly when `queue_get_current_size`
answers `0`; both read the same cached `current_size` field. -/
theorem c8_is_empty_iff_size_zero :
    ∀ q : queue_t, queue_is_empty q = true ↔ queue_get_current_size q = 0 := by
  intro q
  unfold queue_is_empty queue_get_current_size
  split <;> simp_all

/-- C10: at capacity `2^32 - 1` the `uint32_t` length computation in
`queue_init` wraps to `0`, so init succeeds (malloc of zero bytes modelled as
returning non-null) with `total_size = 0`; afterwards the `% total_size`
expressions divide by zero — in the put loop on its very first iteration, and
in the drain loop whenever it runs an iteration with `head ≠ tail`.  For every
capacity at most `2^32 - 2` the computed `total_size` is at least `2`, so the
divisions are guarded. -/
theorem c10_capacity_wrap_div_by_zero :
    queue_init 4294967295 = some ⟨[], 0, 0, 0, 0⟩ ∧
    (∀ (b : Nat) (bs : List Nat) (m : Nat),
      put_loop ⟨[], 0, 0, 0, 0⟩ (b :: bs) m = none) ∧
    (∀ (b : Nat) (bs : List Nat),
      queue_put_data (some ⟨[], 0, 0, 0, 0⟩) (some (b :: bs)) = none) ∧
    (∀ (q : queue_t) (n : Nat), q.total_size = 0 → ¬(q.head = q.tail) →
      drain_loop q (n + 1) = none) ∧
    (∀ (cap : Nat) (q : queue_t), 1 ≤ cap → cap ≤ 4294967294 →
      queue_init cap = some q → 2 ≤ q.total_size) := by
  refine ⟨rfl, fun b bs m => rfl, fun b bs => rfl, ?_, ?_⟩
  · intro q n hT he
    unfold drain_loop
    rw [if_neg he, if_pos hT]
  · intro cap q h1 h2 hin
    obtain ⟨_, hT, _, _, _⟩ := queue_init_wf h1 h2 hin
    omega

/-- C10 witness: the wrapped queue traps on a 1-byte put; a `total_size = 0`
state with `head ≠ tail` traps in the drain loop; capacity 1 yields
`total_size = 2`. -/
theorem c10_capacity_wrap_div_by_zero_witness :
    queue_put_data (some ⟨[], 0, 0, 0, 0⟩) (some [5]) = none ∧
    drain_loop ⟨[], 1, 0, 0, 7⟩ 1 = none ∧
    2 ≤ (⟨List.replicate 2 0, 0, 0, 2, 0⟩ : queue_t).total_size :=
  ⟨c10_capacity_wrap_div_by_zero.2.2.1 5 [],
   c10_capacity_wrap_div_by_zero.2.2.2.1 ⟨[], 1, 0, 0, 7⟩ 0 rfl (by decide),
   c10_capacity_wrap_div_by_zero.2.2.2.2 1 ⟨List.replicate 2 0, 0, 0, 2, 0⟩
     (by norm_num) (by norm_num) rfl⟩

/-- The put loop, on any state with non-zero `total_size`, never traps: it
returns a count between its starting counter and starting counter plus the
number of input bytes, and when the count is short the exit state satisfies
the full condition. -/
theorem put_loop_total :
    ∀ (bytes : List Nat) (q : queue_t) (m : Nat), ¬(q.total_size = 0) →
    ∃ n q', put_loop q bytes m = some (n, q') ∧ m ≤ n ∧ n ≤ m + bytes.length ∧
      (n < m + bytes.length →
        ((q'.tail + 1) % U32) % q'.total_size = q'.head) := by
  intro bytes
  induction bytes with
  | nil =>
    intro q m hT
    exact ⟨m, q, rfl, Nat.le_refl m, by simp, by simp⟩
  | cons b rest ih =>
    intro q m hT
    by_cases hf : ((q.tail + 1) % U32) % q.total_size = q.head
    · refine ⟨m, q, ?_, Nat.le_refl m, by simp, fun _ => hf⟩
      simp [put_loop, hT, hf]
    · obtain ⟨n, q', hpl, hle, hub, hshort⟩ :=
        ih { q with
             data := q.data.set q.tail b,
             tail := ((q.tail + 1) % U32) % q.total_size,
             current_size := (q.current_size + 1) % U32 } (m + 1) hT
      refine ⟨n, q', ?_, by omega, ?_, ?_⟩
      · rw [show put_loop q (b :: rest) m =
            put_loop
              { q with
                data := q.data.set q.tail b,
                tail := ((q.tail + 1) % U32) % q.total_size,
                current_size := (q.current_size + 1) % U32 } rest (m + 1)
            by simp [put_loop, hT, hf]]
        exact hpl
      · simp only [List.length_cons]
        omega
      · intro hlt
        refine hshort ?_
        simp only [List.length_cons] at hlt
        omega

/-- C4 (amended): `queue_put_data` returns `-1` exactly when an argument is
invalid — null queue, null data, or zero length.  On every valid call whose
queue has non-zero `total_size` (which includes every queue produced by a
non-wrapping `queue_init`; at capacity `2^32 - 1` the call traps instead, see
the counterexample) it returns a count `n` with `0 ≤ n ≤ data_len`, and a
short count is not an error: it happens exactly with the full condition
holding at exit. -/
theorem c4_put_error_iff_invalid :
    ∀ (queue : Option queue_t) (data : Option (List Nat)),
      ((∃ r, queue_put_data queue data = some (-1, r)) ↔
        queue = none ∨ data = none ∨ data = some []) ∧
      (∀ q bytes, queue = some q → data = some bytes → bytes ≠ [] →
        ¬(q.total_size = 0) →
        ∃ (n : Nat) (q' : queue_t),
          queue_put_data queue data = some ((n : Int), some q') ∧
          n ≤ bytes.length ∧
          (n < bytes.length →
            ((q'.tail + 1) % U32) % q'.total_size = q'.head)) := by
  intro queue data
  constructor
  · constructor
    · rintro ⟨r, hr⟩
      cases queue with
      | none => exact Or.inl rfl
      | some q =>
        cases data with
        | none => exact Or.inr (Or.inl rfl)
        | some bytes =>
          cases bytes with
          | nil => exact Or.inr (Or.inr rfl)
          | cons b rest =>
            exfalso
            simp only [queue_put_data] at hr
            cases hpl : put_loop q (b :: rest) 0 with
            | none => rw [hpl] at hr; cases hr
            | some p =>
              obtain ⟨n, q'⟩ := p
              rw [hpl] at hr
              have h1 := Option.some.inj hr
              have h2 := congrArg Prod.fst h1
              simp only at h2
              omega
    · rintro (rfl | rfl | rfl)
      · exact ⟨none, rfl⟩
      · cases queue with
        | none => exact ⟨none, rfl⟩
        | some q => exact ⟨some q, rfl⟩
      · cases queue with
        | none => exact ⟨none, rfl⟩
        | some q => exact ⟨some q, rfl⟩
  · rintro q bytes rfl rfl hne hT
    cases bytes with
    | nil => exact absurd rfl hne
    | cons b rest =>
      obtain ⟨n, q', hpl, hm, hub, hshort⟩ := put_loop_total (b :: rest) q 0 hT
      exact ⟨n, q', by simp [queue_put_data, hpl], by simpa using hub,
        fun hlt => hshort (by omega)⟩

/-- C4 counterexample: after `queue_init (2^32 - 1)` the queue handle is
valid (init reported success) and the data argument is a non-null 1-byte
buffer, yet the call traps on a division by zero (modelled `none`) instead of
returning a byte count in `0..data_len`. -/
theorem c4_counterexample_wrap_crash :
    (queue_init 4294967295).isSome = true ∧
    queue_put_data (queue_init 4294967295) (some [5]) = none :=
  ⟨rfl, rfl⟩

/-- C4 witness: a null data pointer yields `-1`; a valid 2-byte put on the
fresh capacity-4 queue returns a count of at most 2. -/
theorem c4_put_error_iff_invalid_witness :
    (∃ r, queue_put_data (some ⟨List.replicate 5 0, 0, 0, 5, 0⟩) none =
      some (-1, r)) ∧
    (∃ (n : Nat) (q' : queue_t),
      queue_put_data (some ⟨List.replicate 5 0, 0, 0, 5, 0⟩) (some [1, 2]) =
        some ((n : Int), some q') ∧
      n ≤ [1, 2].length ∧
      (n < [1, 2].length →
        ((q'.tail + 1) % U32) % q'.total_size = q'.head)) :=
  ⟨(c4_put_error_iff_invalid (some ⟨List.replicate 5 0, 0, 0, 5, 0⟩) none).1.mpr
      (Or.inr (Or.inl rfl)),
   (c4_put_error_iff_invalid (some ⟨List.replicate 5 0, 0, 0, 5, 0⟩)
      (some [1, 2])).2 ⟨List.replicate 5 0, 0, 0, 5, 0⟩ [1, 2] rfl rfl
      (by simp) (by norm_num)⟩

/-- C9: on a queue satisfying the occupancy invariant, a valid put writes and
returns exactly `min data_len (capacity - occupancy)` bytes, where the
requested capacity is `total_size - 1`, and the occupancy grows by exactly
that amount; the shared drain step of `queue_get_data` and
`queue_get_data_with_timeout` transfers exactly `min max_len occupancy` bytes
and the occupancy shrinks by exactly that amount. -/
theorem c9_exact_transfer_counts :
    (∀ (q : queue_t) (bytes : List Nat), queue_inv q → bytes ≠ [] →
      ∃ q', queue_put_data (some q) (some bytes) =
          some
            (((min bytes.length (q.total_size - 1 - q.current_size) : Nat) : Int),
              some q') ∧
        q'.current_size =
          q.current_size + min bytes.length (q.total_size - 1 - q.current_size)) ∧
    (∀ (q : queue_t) (n : Nat), queue_inv q →
      ∃ out q', drain_loop q n = some (out, q') ∧
        out.length = min n q.current_size ∧
        q'.current_size = q.current_size - min n q.current_size) := by
  constructor
  · intro q bytes hinv hne
    cases bytes with
    | nil => exact absurd rfl hne
    | cons b rest =>
      obtain ⟨q', hpl, hinv', hh, hT, hdl, hcs⟩ := put_loop_inv (b :: rest) q 0 hinv
      exact ⟨q', by simp [queue_put_data, hpl], hcs⟩
  · intro q n hinv
    obtain ⟨out, q', hdl, hlen, hinv', htl, hT, hdata, hcs⟩ := drain_loop_inv n q hinv
    exact ⟨out, q', hdl, hlen, hcs⟩

/-- C9 witness: on the fresh capacity-4 queue (occupancy 0) a 3-byte put
returns `min 3 4 = 3` and leaves occupancy 3; a 2-byte drain on the resulting
state transfers `min 2 3 = 2` bytes leaving occupancy 1. -/
theorem c9_exact_transfer_counts_witness :
    (∃ q', queue_put_data (some ⟨List.replicate 5 0, 0, 0, 5, 0⟩)
        (some [1, 2, 3]) =
        some (((min 3 (5 - 1 - 0) : Nat) : Int), some q') ∧
      q'.current_size = 0 + min 3 (5 - 1 - 0)) ∧
    (∃ out q', drain_loop ⟨[1, 2, 3, 0, 0], 0, 3, 5, 3⟩ 2 = some (out, q') ∧
      out.length = min 2 3 ∧ q'.current_size = 3 - min 2 3) :=
  ⟨(c9_exact_transfer_counts.1 ⟨List.replicate 5 0, 0, 0, 5, 0⟩ [1, 2, 3]
      (by decide) (by simp)),
   (c9_exact_transfer_counts.2 ⟨[1, 2, 3, 0, 0], 0, 3, 5, 3⟩ 2 (by decide))⟩

/-- C7 (amended): the occupancy invariant — `head, tail < total_size` and
`current_size = (tail - head) mod total_size` (with the `uint32_t` bound on
`total_size`) — holds after `queue_init` for every capacity up to `2^32 - 2`
(at capacity `2^32 - 1` the wrapped `total_size = 0` violates it, see the
counterexample), is established by `queue_clear` on any state with a usable
`total_size`, and is preserved by `queue_put_data`, by `queue_get_data`, and
by `queue_get_data_with_timeout` (for the timed get, provided the states
observed at wake-up — produced by concurrent invariant-respecting operations
— satisfy it as well). -/
theorem c7_occupancy_invariant :
    (∀ (N : Nat) (q : queue_t), 1 ≤ N → N ≤ 4294967294 →
      queue_init N = some q → queue_inv q) ∧
    (∀ (q q' : queue_t), 1 ≤ q.total_size → q.total_size < U32 →
      queue_clear (some q) = (true, some q') → queue_inv q') ∧
    (∀ (q : queue_t) (data : Option (List Nat)) (r : Int) (q' : queue_t),
      queue_inv q → queue_put_data (some q) data = some (r, some q') →
      queue_inv q') ∧
    (∀ (q : queue_t) (dok : Bool) (n : Nat) (out : List Nat) (q' : queue_t),
      queue_inv q → queue_get_data (some q) dok n = .ok out q' → queue_inv q') ∧
    (∀ (q : queue_t) (dok : Bool) (n t : Nat) (waits : List (Int × queue_t))
      (out : List Nat) (q' : queue_t),
      queue_inv q → (∀ p ∈ waits, queue_inv p.2) →
      queue_get_data_with_timeout (some q) dok n t waits = .ok out q' →
      queue_inv q') ∧
    (∀ (q : queue_t) (dok : Bool) (n t : Nat) (waits : List (Int × queue_t))
      (q' : queue_t),
      queue_inv q → (∀ p ∈ waits, queue_inv p.2) →
      queue_get_data_with_timeout (some q) dok n t waits = .timeoutFail q' →
      queue_inv q') := by
  have hwait : ∀ (q : queue_t) (t : Nat) (waits : List (Int × queue_t)) qN,
      queue_inv q → (∀ p ∈ waits, queue_inv p.2) →
      ((if t > 0 then timeout_wait_loop q waits else WaitOutcome.proceed q) =
          .proceed qN ∨
        (if t > 0 then timeout_wait_loop q waits else WaitOutcome.proceed q) =
          .fail qN) →
      queue_inv qN := by
    intro q t waits qN hq hall hw
    by_cases ht : t > 0
    · rw [if_pos ht] at hw
      rcases hw with hw | hw
      · exact (timeout_wait_loop_inv waits q hq hall).1 qN hw
      · exact (timeout_wait_loop_inv waits q hq hall).2 qN hw
    · rw [if_neg ht] at hw
      rcases hw with hw | hw
      · cases hw; exact hq
      · cases hw
  refine ⟨?_, ?_, ?_, ?_, ?_, ?_⟩
  · intro N q h1 h2 hin
    exact (queue_init_wf h1 h2 hin).1.1
  · intro q q' hT hU hcl
    have h := Prod.mk.injEq .. ▸ hcl
    have h2 : some { q with head := 0, tail := 0, current_size := 0 } = some q' :=
      congrArg Prod.snd hcl
    cases Option.some.inj h2
    refine ⟨hT, hT, hU, ?_⟩
    show (0 : Nat) = (q.total_size + 0 - 0) % q.total_size
    simp
  · intro q data r q' hq hput
    cases data with
    | none =>
      simp only [queue_put_data] at hput
      cases Option.some.inj hput
      exact hq
    | some bytes =>
      cases bytes with
      | nil =>
        simp only [queue_put_data] at hput
        cases Option.some.inj hput
        exact hq
      | cons b rest =>
        obtain ⟨q1, hpl, hinv1, _, _, _, _⟩ := put_loop_inv (b :: rest) q 0 hq
        simp only [queue_put_data, hpl] at hput
        have h2 := congrArg Prod.snd (Option.some.inj hput)
        simp only at h2
        cases Option.some.inj h2
        exact hinv1
  · intro q dok n out q' hq hget
    simp only [queue_get_data] at hget
    split at hget
    · cases hget
    · split at hget
      · cases hget
      · obtain ⟨out0, q0, hdl, _, hinv0, _, _, _, _⟩ := drain_loop_inv n q hq
        rw [hdl] at hget
        cases hget
        exact hinv0
  · intro q dok n t waits out q' hq hall hget
    simp only [queue_get_data_with_timeout] at hget
    split at hget
    · cases hget
    · cases hw : (if t > 0 then timeout_wait_loop q waits else
          WaitOutcome.proceed q) with
      | pending => rw [hw] at hget; cases hget
      | fail qN => rw [hw] at hget; cases hget
      | proceed qN =>
        rw [hw] at hget
        have hinvN : queue_inv qN := hwait q t waits qN hq hall (Or.inl hw)
        obtain ⟨out0, q0, hdl, _, hinv0, _, _, _, _⟩ := drain_loop_inv n qN hinvN
        simp only at hget
        rw [hdl] at hget
        cases hget
        exact hinv0
  · intro q dok n t waits q' hq hall hget
    simp only [queue_get_data_with_timeout] at hget
    split at hget
    · cases hget
    · cases hw : (if t > 0 then timeout_wait_loop q waits else
          WaitOutcome.proceed q) with
      | pending => rw [hw] at hget; cases hget
      | proceed qN =>
        rw [hw] at hget
        obtain ⟨out0, q0, hdl, _, hinv0, _, _, _, _⟩ :=
          drain_loop_inv n qN (hwait q t waits qN hq hall (Or.inl hw))
        simp only at hget
        rw [hdl] at hget
        cases hget
      | fail qN =>
        rw [hw] at hget
        cases hget
        exact hwait q t waits q' hq hall (Or.inr hw)

/-- C7 counterexample: at capacity `2^32 - 1` init succeeds but leaves
`total_size = 0`, so the claimed invariant bound `head < total_size` fails
immediately after `queue_init`. -/
theorem c7_counterexample_wrap :
    queue_init 4294967295 = some ⟨[], 0, 0, 0, 0⟩ ∧
    ¬ queue_inv ⟨[], 0, 0, 0, 0⟩ :=
  ⟨rfl, by decide⟩

/-- C7 witness: the invariant holds on the fresh capacity-4 queue, after a
1-byte put on it, and after a 1-byte blocking get from the latter state. -/
theorem c7_occupancy_invariant_witness :
    queue_inv ⟨List.replicate 5 0, 0, 0, 5, 0⟩ ∧
    queue_inv ⟨[1, 0, 0, 0, 0], 0, 1, 5, 1⟩ ∧
    queue_inv ⟨[1, 0, 0, 0, 0], 1, 1, 5, 0⟩ :=
  ⟨c7_occupancy_invariant.1 4 ⟨List.replicate 5 0, 0, 0, 5, 0⟩ (by norm_num)
      (by norm_num) rfl,
   c7_occupancy_invariant.2.2.1 ⟨List.replicate 5 0, 0, 0, 5, 0⟩ (some [1]) 1
      ⟨[1, 0, 0, 0, 0], 0, 1, 5, 1⟩ (by decide) (by decide),
   c7_occupancy_invariant.2.2.2.1 ⟨[1, 0, 0, 0, 0], 0, 1, 5, 1⟩ true 1 [1]
      ⟨[1, 0, 0, 0, 0], 1, 1, 5, 0⟩ (by decide) (by decide)⟩

/-- C2 (amended): for every capacity `N` with `1 ≤ N ≤ 2^32 - 2` (at
`N = 2^32 - 1` the wrapped `total_size` makes the first put trap, see the
counterexample), a single put of any `N` bytes into the freshly initialized
queue returns `N`; an immediately following 1-byte put returns `0` and leaves
the state untouched — so every repetition keeps returning `0` — and once at
least one byte has been dequeued, a 1-byte put succeeds again (returns 1). -/
theorem c2_capacity_bound :
    ∀ (N : Nat) (bytes : List Nat) (q0 : queue_t),
      1 ≤ N → N ≤ 4294967294 → bytes.length = N → queue_init N = some q0 →
      ∃ q1, queue_put_data (some q0) (some bytes) = some ((N : Int), some q1) ∧
        (∀ c, queue_put_data (some q1) (some [c]) = some ((0 : Int), some q1)) ∧
        (∀ (k : Nat) (out : List Nat) (q2 : queue_t) (c : Nat), 1 ≤ k →
          queue_get_data (some q1) true k = .ok out q2 →
          ∃ q3, queue_put_data (some q2) (some [c]) =
            some ((1 : Int), some q3)) := by
  intro N bytes q0 h1 h2 hblen hinit
  obtain ⟨hwf0, hT0, hcs0, hh0, htl0⟩ := queue_init_wf h1 h2 hinit
  cases bytes with
  | nil =>
    exfalso
    simp at hblen
    omega
  | cons b rest =>
    obtain ⟨q1, hpl, hwf1, hh1, hT1, hcs1, hcont1⟩ :=
      put_loop_contents (b :: rest) q0 0 hwf0
    have hmin : min (b :: rest).length (q0.total_size - 1 - q0.current_size) = N := by
      rw [hblen, hT0, hcs0]
      omega
    have hn0 : 0 + min (b :: rest).length (q0.total_size - 1 - q0.current_size)
        = N := by omega
    have hput : queue_put_data (some q0) (some (b :: rest)) =
        some ((N : Int), some q1) := by
      rw [show queue_put_data (some q0) (some (b :: rest)) =
          match put_loop q0 (b :: rest) 0 with
          | none => none
          | some (n, qq) => some ((n : Int), some qq) from rfl, hpl, hn0]
    have hinv1 := hwf1.1
    have hcs1' : q1.current_size = N := by omega
    have hfull1 : q1.current_size = q1.total_size - 1 := by
      rw [hT1] at *
      omega
    refine ⟨q1, hput, ?_, ?_⟩
    · intro c
      have hf : ((q1.tail + 1) % U32) % q1.total_size = q1.head :=
        (full_iff hinv1).mpr hfull1
      have hT1pos : ¬(q1.total_size = 0) := by
        have := hinv1.1
        omega
      simp [queue_put_data, put_loop, hT1pos, hf]
    · intro k out q2 c hk hget
      have hne : ¬(queue_get_current_size q1 = 0) := by
        unfold queue_get_current_size
        omega
      obtain ⟨out0, qd, hdl, hlen0, hinv2, _, hT2, _, hcs2⟩ :=
        drain_loop_inv k q1 hinv1
      simp only [queue_get_data, if_neg (show ¬(true = false ∨ k = 0) by
        simp; omega), if_neg hne, hdl] at hget
      cases hget
      obtain ⟨q3, hpl3, hinv3, _, _, _, hcs3⟩ := put_loop_inv [c] q2 0 hinv2
      have hmin3 : min [c].length (q2.total_size - 1 - q2.current_size) = 1 := by
        simp only [List.length_singleton]
        rw [hT2, hT1, hT0] at *
        omega
      have hn1 : 0 + min [c].length (q2.total_size - 1 - q2.current_size)
          = 1 := by omega
      refine ⟨q3, ?_⟩
      rw [show queue_put_data (some q2) (some [c]) =
          match put_loop q2 [c] 0 with
          | none => none
          | some (n, qq) => some ((n : Int), some qq) from rfl, hpl3, hn1]
      rfl

/-- C2 counterexample: at capacity `N = 2^32 - 1`, `queue_init` succeeds (with
a wrapped `total_size = 0`), and the single put of `N` bytes does not return
`N` — it traps on the `% total_size` division by zero at its first iteration
(modelled `none`). -/
theorem c2_counterexample_wrap :
    queue_put_data (queue_init 4294967295)
      (some (List.replicate 4294967295 7)) = none := by
  have h : (4294967295 : Nat) = 4294967294 + 1 := by norm_num
  rw [h, List.replicate_succ]
  rfl

/-- C2 witness: capacity 4, put of `[1,2,3,4]` returns 4; a following 1-byte
put returns 0 with the state unchanged; after a byte is dequeued a 1-byte put
returns 1. -/
theorem c2_capacity_bound_witness :
    ∃ q1, queue_put_data (some ⟨List.replicate 5 0, 0, 0, 5, 0⟩)
        (some [1, 2, 3, 4]) = some ((4 : Int), some q1) ∧
      (∀ c, queue_put_data (some q1) (some [c]) = some ((0 : Int), some q1)) ∧
      (∀ (k : Nat) (out : List Nat) (q2 : queue_t) (c : Nat), 1 ≤ k →
        queue_get_data (some q1) true k = .ok out q2 →
        ∃ q3, queue_put_data (some q2) (some [c]) =
          some ((1 : Int), some q3)) := by
  have h := c2_capacity_bound 4 [1, 2, 3, 4] ⟨List.replicate 5 0, 0, 0, 5, 0⟩
    (by norm_num) (by norm_num) rfl rfl
  exact h

/-- C3: bytes enqueued by any sequence of fully-written puts (no intervening
get, no short write) into an empty queue come back from a single get of the
same total count exactly in enqueue order — also when the written region
wraps around the end of the buffer, since the starting `head = tail` position
is arbitrary. -/
theorem c3_fifo_order :
    ∀ (q : queue_t) (bss : List (List Nat)) (q' : queue_t),
      queue_wf q → q.current_size = 0 → bss ≠ [] → (∀ bs ∈ bss, bs ≠ []) →
      put_seq q bss = some q' →
      ∃ q'', queue_get_data (some q') true bss.flatten.length =
        .ok bss.flatten q'' := by
  intro q bss q' hwf hemp hne hnenil hseq
  obtain ⟨hwf', hT', hcs', hcont'⟩ := put_seq_contents bss q hwf q' hseq
  have hc0 : queue_contents q = [] := contents_of_empty hemp
  have hcont : queue_contents q' = bss.flatten := by
    rw [hcont', hc0]
    simp
  have hlen' : q'.current_size = bss.flatten.length := by
    rw [← contents_length q', hcont]
  have hpos : ¬(bss.flatten.length = 0) := by
    cases bss with
    | nil => exact absurd rfl hne
    | cons bs bss =>
      have hbs : bs ≠ [] := hnenil bs (List.mem_cons_self _ _)
      cases bs with
      | nil => exact absurd rfl hbs
      | cons b brest => simp
  obtain ⟨q'', hdl, _, _, _, _, _, _⟩ :=
    drain_loop_contents bss.flatten.length q' hwf'
  have htake : (queue_contents q').take bss.flatten.length = bss.flatten := by
    rw [hcont]
    exact List.take_length _
  refine ⟨q'', ?_⟩
  have hne2 : ¬(queue_get_current_size q' = 0) := by
    unfold queue_get_current_size
    omega
  have hargs : ¬(true = false ∨ bss.flatten.length = 0) := by
    rintro (hc | hc)
    · exact Bool.noConfusion hc
    · exact hpos hc
  rw [show queue_get_data (some q') true bss.flatten.length =
      (if true = false ∨ bss.flatten.length = 0 then GetResult.invalid
       else if queue_get_current_size q' = 0 then GetResult.blocked
       else
         match drain_loop q' bss.flatten.length with
         | none => GetResult.crash
         | some (out, qq) => GetResult.ok out qq) from rfl,
    if_neg hargs, if_neg hne2, hdl, htake]

/-- C3 witness: starting from an empty wrapped position (`head = tail = 3`,
capacity 4), the puts `[1,2]` then `[3,4]` wrap around the buffer end, and a
4-byte get returns `[1,2,3,4]` in order. -/
theorem c3_fifo_order_witness :
    ∃ q'', queue_get_data (some ⟨[3, 4, 9, 1, 2], 3, 2, 5, 4⟩) true 4 =
      .ok [1, 2, 3, 4] q'' := by
  have h := c3_fifo_order ⟨[9, 9, 9, 9, 9], 3, 3, 5, 0⟩ [[1, 2], [3, 4]]
    ⟨[3, 4, 9, 1, 2], 3, 2, 5, 4⟩ (by decide) rfl (by simp) (by decide) rfl
  simpa using h
